import Mathlib

set_option autoImplicit false

namespace StrawberrySpec

/-!
Verification model of the strawberry type-resolution and schema-conversion
engine.  Part 1 embeds the annotation resolver
(`strawberry/annotation.py`, class `StrawberryAnnotation`).

Python type expressions are embedded as the inductive `PyType`.  The
variants mirror the shapes the resolver distinguishes:

* `raw` — an opaque class with no strawberry attributes (e.g. `str`, `int`);
* `noneType` / `unsetType` — `type(None)` and `type(UNSET)`;
* `typeVar` — a `typing.TypeVar`;
* `pylist` — an annotation whose origin is `list`, `tuple` or `abc.Sequence`;
* `union` — `typing.Union[...]` with its `__args__`;
* `annotated` — `Annotated[base, m0, *ms]` / `StrawberryAnnotated`; the
  metadata list is non-empty by construction, as in Python, where
  `Annotated` requires at least one metadata argument (metadata values are
  opaque here, numbered by `Nat`);
* `lazyType` — a `LazyType` instance;
* `enumClass` — a Python `Enum` subclass carrying `_enum_definition`;
* `objectClass` — a class carrying `_type_definition` (with its
  `is_input` / `is_interface` flags);
* `typeDefinitionValue` / `scalarDefValue` — a raw `TypeDefinition` /
  `ScalarDefinition` instance;
* `enumDefinition`, `strawberryList`, `strawberryOptional`,
  `strawberryUnion`, `strawberryTypeVar` — already-resolved strawberry
  nodes (a `StrawberryUnion` stores its member annotations unresolved).

Generic aliases and async wrappers are outside the modelled fragment: no
claim exercises `create_concrete_type` or `_strip_async_type`.
-/

inductive PyType where
  | raw (name : String)
  | noneType
  | unsetType
  | typeVar (name : String)
  | pylist (elem : PyType)
  | union (args : List PyType)
  | annotated (base : PyType) (m0 : Nat) (ms : List Nat)
  | lazyType (name : String)
  | enumClass (name : String)
  | objectClass (name : String) (isInput : Bool) (isInterface : Bool)
  | typeDefinitionValue (name : String)
  | scalarDefValue (name : String)
  | enumDefinition (name : String)
  | strawberryList (of : PyType)
  | strawberryOptional (of : PyType)
  | strawberryUnion (members : List PyType)
  | strawberryTypeVar (name : String)
  deriving Repr

/-- `x is type(None)` — the test used by `_is_optional`. -/
def isNoneTypeB : PyType → Bool
  | .noneType => true
  | _ => false

/-- `x is type(None) or x is type(UNSET)` — the member filter used by
`create_optional` (members satisfying it are dropped). -/
def isNullLike : PyType → Bool
  | .noneType => true
  | .unsetType => true
  | _ => false

/-- `StrawberryAnnotation._is_lazy_type`: `isinstance(annotation, LazyType)`. -/
def isLazyTypeB : PyType → Bool
  | .lazyType _ => true
  | _ => false

/-- `StrawberryAnnotation._is_enum`: `isinstance(annotation, type)` and
`issubclass(annotation, Enum)`. -/
def isEnumB : PyType → Bool
  | .enumClass _ => true
  | _ => false

/-- `StrawberryAnnotation._is_list`: the annotation's `__origin__` is
`list`, `tuple` or `abc.Sequence`. -/
def isListB : PyType → Bool
  | .pylist _ => true
  | _ => false

/-- `StrawberryAnnotation._is_union`: the annotation is a `typing.Union`
(or a 3.10 `UnionType`). -/
def isUnionB : PyType → Bool
  | .union _ => true
  | _ => false

/-- `StrawberryAnnotation._is_optional`: a union with at least one
`type(None)` member. -/
def isOptionalB : PyType → Bool
  | .union args => args.any isNoneTypeB
  | _ => false

/-- `is_type_var`: `isinstance(annotation, TypeVar)`. -/
def isTypeVarB : PyType → Bool
  | .typeVar _ => true
  | _ => false

/-- `StrawberryAnnotation._is_strawberry_type`: `EnumDefinition`, input
types, `StrawberryList`, object types, `TypeDefinition`,
`StrawberryOptional`, `ScalarDefinition` and `StrawberryUnion` instances
are already-resolved strawberry types (`_is_input_type` and
`_is_object_type` both test for the `_type_definition` attribute, so both
are covered by `objectClass`). -/
def isStrawberryTypeB : PyType → Bool
  | .enumDefinition _ => true
  | .objectClass _ _ _ => true
  | .strawberryList _ => true
  | .typeDefinitionValue _ => true
  | .strawberryOptional _ => true
  | .scalarDefValue _ => true
  | .strawberryUnion _ => true
  | _ => false

/-- Modelled from the spec: `StrawberryAnnotated.get_type_and_args`
(`strawberry/type.py` is not part of the sources).  Per the spec's data
model, `Annotated` "always wraps exactly one other variant and carries
zero or more side-channel metadata values"; this unwraps nested metadata
wrappers and collects the metadata. -/
def getTypeAndArgs : PyType → PyType × List Nat
  | .annotated b m0 ms =>
    let (t, a) := getTypeAndArgs b
    (t, a ++ (m0 :: ms))
  | t => (t, [])

mutual

/-- `StrawberryAnnotation.parse_annotated`.  With no
`StrawberryLazyReference` markers in the modelled fragment, the
`Annotated` branch always re-wraps (its metadata list is non-empty), the
union and list branches rebuild the node from parsed parts, and
everything else passes through. -/
def parseAnnotated : PyType → PyType
  | .annotated b m0 ms => .annotated (parseAnnotated b) m0 ms
  | .union args => .union (parseAnnotatedList args)
  | .pylist e => .pylist (parseAnnotated e)
  | t => t

/-- `parse_annotated` mapped over a union's `__args__`. -/
def parseAnnotatedList : List PyType → List PyType
  | [] => []
  | t :: ts => parseAnnotated t :: parseAnnotatedList ts

end

mutual

theorem parseAnnotated_id : (t : PyType) → parseAnnotated t = t
  | .annotated b m0 ms => by rw [parseAnnotated, parseAnnotated_id b]
  | .union args => by rw [parseAnnotated, parseAnnotatedList_id args]
  | .pylist e => by rw [parseAnnotated, parseAnnotated_id e]
  | .raw _ => rfl
  | .noneType => rfl
  | .unsetType => rfl
  | .typeVar _ => rfl
  | .lazyType _ => rfl
  | .enumClass _ => rfl
  | .objectClass _ _ _ => rfl
  | .typeDefinitionValue _ => rfl
  | .scalarDefValue _ => rfl
  | .enumDefinition _ => rfl
  | .strawberryList _ => rfl
  | .strawberryOptional _ => rfl
  | .strawberryUnion _ => rfl
  | .strawberryTypeVar _ => rfl

theorem parseAnnotatedList_id : (l : List PyType) → parseAnnotatedList l = l
  | [] => rfl
  | t :: ts => by rw [parseAnnotatedList, parseAnnotated_id t, parseAnnotatedList_id ts]

end

/-- `Union[tuple]` in Python: a single type passed to `Union` collapses to
that type (see the comment in `create_optional`). -/
def mkUnion : List PyType → PyType
  | [x] => x
  | xs => .union xs

theorem getTypeAndArgs_fst_sizeOf_le : (t : PyType) → sizeOf (getTypeAndArgs t).1 ≤ sizeOf t
  | .annotated b _ _ => by
    have h := getTypeAndArgs_fst_sizeOf_le b
    simp only [getTypeAndArgs, PyType.annotated.sizeOf_spec]
    omega
  | .raw _ | .noneType | .unsetType | .typeVar _ | .pylist _ | .union _
  | .lazyType _ | .enumClass _ | .objectClass _ _ _ | .typeDefinitionValue _
  | .scalarDefValue _ | .enumDefinition _ | .strawberryList _
  | .strawberryOptional _ | .strawberryUnion _ | .strawberryTypeVar _ => by
    simp [getTypeAndArgs]

theorem sizeOf_filter_lt_of_dropped {l : List PyType} {p : PyType → Bool} {x : PyType}
    (hx : x ∈ l) (hpx : p x = false) : sizeOf (l.filter p) < sizeOf l := by
  induction l with
  | nil => cases hx
  | cons h t ih =>
    rcases List.mem_cons.1 hx with rfl | hxt
    · rw [List.filter_cons_of_neg (by simp [hpx])]
      have : sizeOf (t.filter p) ≤ sizeOf t := by
        clear hx hpx ih
        induction t with
        | nil => simp
        | cons h' t' ih' =>
          by_cases hp : p h'
          · rw [List.filter_cons_of_pos hp]
            simp only [List.cons.sizeOf_spec]
            omega
          · rw [List.filter_cons_of_neg hp]
            simp only [List.cons.sizeOf_spec]
            have : 0 < sizeOf h' := by cases h' <;> simp_arith
            omega
      simp only [List.cons.sizeOf_spec]
      have : 0 < sizeOf x := by cases x <;> simp_arith
      omega
    · by_cases hp : p h
      · rw [List.filter_cons_of_pos hp]
        have := ih hxt
        simp only [List.cons.sizeOf_spec]
        omega
      · rw [List.filter_cons_of_neg hp]
        have := ih hxt
        simp only [List.cons.sizeOf_spec]
        have : 0 < sizeOf h := by cases h <;> simp_arith
        omega

theorem sizeOf_mkUnion_le (xs : List PyType) : sizeOf (mkUnion xs) ≤ 1 + sizeOf xs := by
  match xs with
  | [x] =>
    simp only [mkUnion, List.cons.sizeOf_spec, List.nil.sizeOf_spec]
    omega
  | [] => simp [mkUnion]
  | _ :: _ :: _ => simp [mkUnion]

mutual

/-- `StrawberryAnnotation.resolve`.  The forward-reference / `_eval_type`
step is implicit: `PyType` values are already evaluated type expressions.
The async-wrapper strip and the generic branches of the source do not
apply to the modelled fragment (no async or generic-alias variants).  The
remaining pipeline is verbatim: `parse_annotated`, then
`StrawberryAnnotated.get_type_and_args`, then the ordered classification,
then re-wrapping of retained metadata. -/
def resolve (t : PyType) : PyType :=
  let t1 := parseAnnotated t
  let evaled := (getTypeAndArgs t1).1
  let evaledArgs := (getTypeAndArgs t1).2
  let ret := resolveEvaled evaled
  match evaledArgs with
  | [] => ret
  | a :: rest => .annotated ret a rest
termination_by 3 * sizeOf t + 2
decreasing_by
  have h1 : sizeOf (getTypeAndArgs (parseAnnotated t)).1 ≤ sizeOf t := by
    rw [parseAnnotated_id]
    exact getTypeAndArgs_fst_sizeOf_le t
  omega

/-- The ordered classification of `StrawberryAnnotation.resolve` (first
match wins): lazy types pass through, strawberry types pass through,
then `create_enum`, `create_list`, `create_optional`, `create_union`,
`create_type_var`, and finally the raw pass-through.  The last five
checks (`_is_list`, `_is_optional`, `_is_union`, `is_type_var`, else)
test pairwise-disjoint shapes, so they are rendered as a single match:
`_is_optional` is `_is_union` plus a `type(None)` member, hence the
union case splits on `args.any isNoneTypeB`.  `create_list` resolves
the element type; `create_optional` drops `type(None)` and
`type(UNSET)` members and resolves `Union[remaining]`; `create_union`
keeps its member annotations unresolved. -/
def resolveEvaled (evaled : PyType) : PyType :=
  if isLazyTypeB evaled then evaled
  else if isStrawberryTypeB evaled then evaled
  else if isEnumB evaled then
    match evaled with
    | .enumClass n => .enumDefinition n
    | _ => evaled
  else
    match evaled with
    | .pylist elem => .strawberryList (resolve elem)
    | .union args =>
      if h : args.any isNoneTypeB then
        .strawberryOptional (resolve (mkUnion (args.filter (fun x => !isNullLike x))))
      else .strawberryUnion args
    | .typeVar n => .strawberryTypeVar n
    | e => e
termination_by 3 * sizeOf evaled
decreasing_by
  · -- create_list recurses into the element type
    simp only [PyType.pylist.sizeOf_spec]
    omega
  · -- create_optional recurses into Union[remaining members]
    have hmem : PyType.noneType ∈ args := by
      simp only [List.any_eq_true] at h
      obtain ⟨x, hx, hp⟩ := h
      cases x <;> simp [isNoneTypeB] at hp
      exact hx
    have hdrop : sizeOf (args.filter (fun x => !isNullLike x)) < sizeOf args :=
      sizeOf_filter_lt_of_dropped hmem (by simp [isNullLike])
    have hmk := sizeOf_mkUnion_le (args.filter (fun x => !isNullLike x))
    simp only [PyType.union.sizeOf_spec]
    omega

end

/-- Shape test: is the value a metadata wrapper? -/
def isAnnotatedB : PyType → Bool
  | .annotated _ _ _ => true
  | _ => false

/-- Shapes that `resolveEvaled` can return: everything except the raw
shapes it rewrites (`pylist`, `union`, `typeVar`, `enumClass`) and
metadata wrappers. -/
def isResolvedShape : PyType → Bool
  | .pylist _ => false
  | .union _ => false
  | .typeVar _ => false
  | .annotated _ _ _ => false
  | .enumClass _ => false
  | _ => true

theorem getTypeAndArgs_of_not_annotated {t : PyType} (h : isAnnotatedB t = false) :
    getTypeAndArgs t = (t, []) := by
  cases t <;> first | rfl | simp [isAnnotatedB] at h

theorem getTypeAndArgs_fst_not_annotated :
    (t : PyType) → isAnnotatedB (getTypeAndArgs t).1 = false
  | .annotated b _ _ => by
    simpa [getTypeAndArgs] using getTypeAndArgs_fst_not_annotated b
  | .raw _ | .noneType | .unsetType | .typeVar _ | .pylist _ | .union _
  | .lazyType _ | .enumClass _ | .objectClass _ _ _ | .typeDefinitionValue _
  | .scalarDefValue _ | .enumDefinition _ | .strawberryList _
  | .strawberryOptional _ | .strawberryUnion _ | .strawberryTypeVar _ => rfl

/-- Already-classified nodes pass through `resolveEvaled` unchanged. -/
theorem resolveEvaled_of_resolved {e : PyType} (h : isResolvedShape e = true) :
    resolveEvaled e = e := by
  cases e <;>
    first
    | (rw [resolveEvaled.eq_def]
       simp [isLazyTypeB, isStrawberryTypeB, isEnumB]
       done)
    | simp [isResolvedShape] at h

/-- `resolveEvaled` only produces classified nodes. -/
theorem resolveEvaled_shape_resolved {e : PyType} (h : isAnnotatedB e = false) :
    isResolvedShape (resolveEvaled e) = true := by
  cases e <;>
    first
    | (rw [resolveEvaled.eq_def]
       simp only [isLazyTypeB, isStrawberryTypeB, isEnumB, Bool.false_eq_true, if_false]
       first
       | (simp [isResolvedShape]
          done)
       | (split <;> simp [isResolvedShape]))
    | simp [isAnnotatedB] at h

/-- Unfolding of `resolve` with `parse_annotated` reduced away (it is the
identity on the modelled fragment). -/
theorem resolve_eq_core (t : PyType) :
    resolve t =
      match (getTypeAndArgs t).2 with
      | [] => resolveEvaled (getTypeAndArgs t).1
      | a :: rest => .annotated (resolveEvaled (getTypeAndArgs t).1) a rest := by
  rw [resolve.eq_def, parseAnnotated_id]

/-- A node that is already classified resolves to itself. -/
theorem resolve_of_resolved {y : PyType} (h : isResolvedShape y = true) :
    resolve y = y := by
  have hna : isAnnotatedB y = false := by
    cases y <;> simp_all [isAnnotatedB, isResolvedShape]
  rw [resolve_eq_core, getTypeAndArgs_of_not_annotated hna]
  simp [resolveEvaled_of_resolved h]

/-- `resolve` on a union with a `type(None)` member takes the
`create_optional` branch. -/
theorem resolve_union_optional {args : List PyType}
    (hnone : args.any isNoneTypeB = true) :
    resolve (.union args)
      = .strawberryOptional (resolve (mkUnion (args.filter (fun x => !isNullLike x)))) := by
  rw [resolve_eq_core, getTypeAndArgs_of_not_annotated (t := .union args) rfl]
  rw [resolveEvaled.eq_def]
  simp [isLazyTypeB, isStrawberryTypeB, isEnumB, hnone]

/-- `resolve` on a union without a `type(None)` member takes the
`create_union` branch: members stay unresolved. -/
theorem resolve_union_plain {args : List PyType}
    (hnone : args.any isNoneTypeB = false) :
    resolve (.union args) = .strawberryUnion args := by
  rw [resolve_eq_core, getTypeAndArgs_of_not_annotated (t := .union args) rfl]
  rw [resolveEvaled.eq_def]
  simp [isLazyTypeB, isStrawberryTypeB, isEnumB, hnone]

/-- C1: resolving a union that contains the null member yields a
`StrawberryOptional` whose inner type is the resolution of
`Union[non-null members]` (the members that are neither `type(None)` nor
`type(UNSET)`): a single remaining member collapses to that member's own
resolution, never a one-element union, and two or more remaining members
give the union of exactly those members. -/
theorem claim_C1 (args : List PyType)
    (hnone : args.any isNoneTypeB = true)
    (hrem : 1 ≤ (args.filter (fun x => !isNullLike x)).length) :
    resolve (.union args)
      = .strawberryOptional (resolve (mkUnion (args.filter (fun x => !isNullLike x))))
    ∧ (∀ x, args.filter (fun x => !isNullLike x) = [x] →
        resolve (.union args) = .strawberryOptional (resolve x))
    ∧ (2 ≤ (args.filter (fun x => !isNullLike x)).length →
        resolve (.union args)
          = .strawberryOptional (.strawberryUnion (args.filter (fun x => !isNullLike x)))) := by
  refine ⟨resolve_union_optional hnone, ?_, ?_⟩
  · intro x hx
    rw [resolve_union_optional hnone, hx]
    rfl
  · intro h2
    rw [resolve_union_optional hnone]
    have hmk : mkUnion (args.filter (fun x => !isNullLike x))
        = .union (args.filter (fun x => !isNullLike x)) := by
      match hl : args.filter (fun x => !isNullLike x) with
      | [] => rw [hl] at h2; simp at h2
      | [x] => rw [hl] at h2; simp at h2
      | a :: b :: rest => rfl
    rw [hmk]
    have hno : (args.filter (fun x => !isNullLike x)).any isNoneTypeB = false := by
      rw [List.any_eq_false]
      intro x hx
      have := (List.mem_filter.1 hx).2
      cases x <;> simp_all [isNullLike, isNoneTypeB]
    rw [resolve_union_plain hno]

theorem claim_C1_witness :
    ([PyType.raw "A", PyType.raw "B", PyType.noneType].any isNoneTypeB = true)
    ∧ (1 ≤ ([PyType.raw "A", PyType.raw "B", PyType.noneType].filter
          (fun x => !isNullLike x)).length)
    ∧ resolve (.union [.raw "A", .raw "B", .noneType])
        = .strawberryOptional (.strawberryUnion [.raw "A", .raw "B"])
    ∧ resolve (.union [.raw "X", .noneType])
        = .strawberryOptional (.raw "X") := by
  refine ⟨rfl, by decide, ?_, ?_⟩
  · have h := (claim_C1 [.raw "A", .raw "B", .noneType] rfl (by decide)).2.2 (by decide)
    simpa using h
  · have h := (claim_C1 [.raw "X", .noneType] rfl (by decide)).2.1 (.raw "X") (by rfl)
    rw [h, resolve_of_resolved (y := .raw "X") rfl]

/-- C9: resolution is idempotent — resolving the result of a resolution
returns it unchanged, because every node `resolve` produces is either an
already-classified strawberry node (returned unchanged by the
`_is_strawberry_type` and fall-through branches) or such a node wrapped
in retained metadata. -/
theorem claim_C9 (t : PyType) : resolve (resolve t) = resolve t := by
  have hna := getTypeAndArgs_fst_not_annotated t
  have hshape := resolveEvaled_shape_resolved hna
  rw [resolve_eq_core t]
  cases hargs : (getTypeAndArgs t).2 with
  | nil =>
    simp only []
    exact resolve_of_resolved hshape
  | cons a rest =>
    simp only []
    have hcore : isAnnotatedB (resolveEvaled (getTypeAndArgs t).1) = false := by
      cases hc : resolveEvaled (getTypeAndArgs t).1 <;>
        simp_all [isAnnotatedB, isResolvedShape]
    rw [resolve_eq_core]
    simp [getTypeAndArgs, getTypeAndArgs_of_not_annotated hcore,
      resolveEvaled_of_resolved hshape]

/-!
Part 2 embeds type registration (`strawberry/object_type.py`).
`TypeDefinition` (from `strawberry/types/types.py`, whose fields are
described by the spec's data model) is modelled with the fields the
claims exercise: name, the mutually-exclusive `is_input`/`is_interface`
flags, the implemented interfaces, and the description.  `PyClass` is a
declared Python class: its optional `_type_definition` attribute and its
`__bases__`.
-/

inductive TypeDefinition where
  | mk (name : String) (isInput : Bool) (isInterface : Bool)
      (interfaces : List TypeDefinition) (description : Option String)
  deriving Repr

def TypeDefinition.name : TypeDefinition → String
  | .mk n _ _ _ _ => n

def TypeDefinition.isInput : TypeDefinition → Bool
  | .mk _ i _ _ _ => i

def TypeDefinition.isInterface : TypeDefinition → Bool
  | .mk _ _ i _ _ => i

def TypeDefinition.interfaces : TypeDefinition → List TypeDefinition
  | .mk _ _ _ l _ => l

def TypeDefinition.description : TypeDefinition → Option String
  | .mk _ _ _ _ d => d

/-- A declared class: `getattr(cls, "_type_definition", None)` and
`cls.__bases__`. -/
inductive PyClass where
  | mk (typeDef : Option TypeDefinition) (bases : List PyClass)
  deriving Repr

def PyClass.typeDef : PyClass → Option TypeDefinition
  | .mk td _ => td

def PyClass.bases : PyClass → List PyClass
  | .mk _ b => b

mutual

/-- `object_type._get_interfaces`: walk `cls.__bases__`; for each base,
append its `_type_definition` when that is an interface, then append the
base's own recursively collected interfaces.  There is no
de-duplication. -/
def getInterfaces : PyClass → List TypeDefinition
  | .mk _ bases => getInterfacesOfBases bases

/-- The `for base in cls.__bases__` loop body of `_get_interfaces`. -/
def getInterfacesOfBases : List PyClass → List TypeDefinition
  | [] => []
  | b :: rest =>
    (match b.typeDef with
     | some td => if td.isInterface then [td] else []
     | none => []) ++ getInterfaces b ++ getInterfacesOfBases rest

end

/-- `td` is an interface inherited by `c`: some base of `c` declares it,
or some base of `c` inherits it. -/
inductive InheritsInterface : PyClass → TypeDefinition → Prop where
  | direct {c b : PyClass} {td : TypeDefinition} :
      b ∈ c.bases → b.typeDef = some td → td.isInterface = true →
      InheritsInterface c td
  | nested {c b : PyClass} {td : TypeDefinition} :
      b ∈ c.bases → InheritsInterface b td → InheritsInterface c td

mutual

theorem mem_getInterfaces_mp :
    (c : PyClass) → (td : TypeDefinition) → td ∈ getInterfaces c →
      InheritsInterface c td
  | .mk tdc bases, td, h => by
    rw [getInterfaces] at h
    obtain ⟨b, hb, hcase⟩ := mem_getInterfacesOfBases_mp bases td h
    rcases hcase with ⟨htd, hint⟩ | hrec
    · exact .direct (c := .mk tdc bases) hb htd hint
    · exact .nested (c := .mk tdc bases) hb hrec

theorem mem_getInterfacesOfBases_mp :
    (l : List PyClass) → (td : TypeDefinition) → td ∈ getInterfacesOfBases l →
      ∃ b ∈ l, (b.typeDef = some td ∧ td.isInterface = true) ∨ InheritsInterface b td
  | [], td, h => by rw [getInterfacesOfBases] at h; cases h
  | b :: rest, td, h => by
    rw [getInterfacesOfBases] at h
    rcases List.mem_append.1 h with h1 | h2
    · rcases List.mem_append.1 h1 with h0 | hrec
      · refine ⟨b, List.mem_cons_self b rest, Or.inl ?_⟩
        cases htd : b.typeDef with
        | none => simp [htd] at h0
        | some td' =>
          simp only [htd] at h0
          by_cases hint : td'.isInterface = true
          · simp [hint] at h0
            exact ⟨by rw [h0], by rw [h0]; exact hint⟩
          · simp [hint] at h0
      · exact ⟨b, List.mem_cons_self b rest, Or.inr (mem_getInterfaces_mp b td hrec)⟩
    · obtain ⟨b', hb', hcase⟩ := mem_getInterfacesOfBases_mp rest td h2
      exact ⟨b', List.mem_cons_of_mem b hb', hcase⟩

end

theorem mem_getInterfacesOfBases_of_direct {l : List PyClass} {b : PyClass}
    {td : TypeDefinition} (hb : b ∈ l) (htd : b.typeDef = some td)
    (hint : td.isInterface = true) : td ∈ getInterfacesOfBases l := by
  induction l with
  | nil => cases hb
  | cons x rest ih =>
    rw [getInterfacesOfBases]
    rcases List.mem_cons.1 hb with rfl | hbr
    · exact List.mem_append.2 (Or.inl (List.mem_append.2 (Or.inl (by
        simp [htd, hint]))))
    · exact List.mem_append.2 (Or.inr (ih hbr))

theorem mem_getInterfacesOfBases_of_nested {l : List PyClass} {b : PyClass}
    {td : TypeDefinition} (hb : b ∈ l) (hrec : td ∈ getInterfaces b) :
    td ∈ getInterfacesOfBases l := by
  induction l with
  | nil => cases hb
  | cons x rest ih =>
    rw [getInterfacesOfBases]
    rcases List.mem_cons.1 hb with rfl | hbr
    · exact List.mem_append.2 (Or.inl (List.mem_append.2 (Or.inr hrec)))
    · exact List.mem_append.2 (Or.inr (ih hbr))

theorem getInterfaces_eq (c : PyClass) :
    getInterfaces c = getInterfacesOfBases c.bases := by
  cases c with
  | mk td b =>
    rw [getInterfaces]
    rfl

theorem mem_getInterfaces_mpr {c : PyClass} {td : TypeDefinition}
    (h : InheritsInterface c td) : td ∈ getInterfaces c := by
  induction h with
  | direct hb htd hint =>
    rw [getInterfaces_eq]
    exact mem_getInterfacesOfBases_of_direct hb htd hint
  | nested hb _ ih =>
    rw [getInterfaces_eq]
    exact mem_getInterfacesOfBases_of_nested hb ih

/-- The diamond: interface `I`; object types `B` and `C` both implement
it; `D` inherits from both `B` and `C`. -/
def tdInterfaceI : TypeDefinition := .mk "I" false true [] none

def classI : PyClass := .mk (some tdInterfaceI) []

def tdObjB : TypeDefinition := .mk "B" false false [tdInterfaceI] none

def classB : PyClass := .mk (some tdObjB) [classI]

def tdObjC : TypeDefinition := .mk "C" false false [tdInterfaceI] none

def classC : PyClass := .mk (some tdObjC) [classI]

def classD : PyClass := .mk none [classB, classC]

/-- C8 counterexample: with diamond inheritance the collected interface
list contains the same interface definition twice — `_get_interfaces`
does not de-duplicate. -/
theorem claim_C8_counterexample :
    getInterfaces classD = [tdInterfaceI, tdInterfaceI]
    ∧ ¬ (getInterfaces classD).Nodup := by
  have h : getInterfaces classD = [tdInterfaceI, tdInterfaceI] := by
    simp [getInterfaces, getInterfacesOfBases, classD, classB, classC, classI,
      tdObjB, tdObjC, tdInterfaceI, PyClass.typeDef, TypeDefinition.isInterface]
  exact ⟨h, by rw [h]; simp⟩

/-- C8 (amended): the list of inherited interface definitions collected at
registration time contains exactly the interface definitions reachable
through base-class chains, but it is not de-duplicated: an interface
reachable through several base-class paths appears once per path (see the
counterexample). -/
theorem claim_C8 (c : PyClass) (td : TypeDefinition) :
    td ∈ getInterfaces c ↔ InheritsInterface c td :=
  ⟨mem_getInterfaces_mp c td, mem_getInterfaces_mpr⟩

/-!
Part 3 embeds the schema converter
(`strawberry/schema/schema_converter.py`, class `GraphQLCoreConverter`).

`RType` is the universe of resolved strawberry types reaching
`from_type` / `from_maybe_optional`: scalar classes (with their
optional `_scalar_definition` attribute), `None`/`NoneType`, enum
definitions, classes with a `_type_definition` (objects, inputs,
interfaces — reusing Part 2's `TypeDefinition`), `StrawberryList`,
`StrawberryOptional`, named `StrawberryUnion`s, and
`StrawberryAnnotated` metadata wrappers.  GraphQL-core nodes are
`GraphQLType`; object/input/interface/enum/union nodes are identified
by name because their field lists are lazy thunks not forced during
conversion.  The converter's `type_map` is an association list from
emitted schema name to `ConcreteType` (definition plus implementation).
Names are produced by `config.name_converter.from_type`; the
`NameConverter` sources are not part of the embedded files, so, as the
spec describes ("pure function mapping a declared name to its public
wire name"), it is modelled as reading the stored definition name.
-/

structure ScalarDefinition where
  name : String
  implementationName : Option String
  deriving Repr, DecidableEq

structure EnumDefinition where
  name : String
  deriving Repr, DecidableEq

inductive GraphQLType where
  | scalar (name : String)
  | object (name : String)
  | inputObject (name : String)
  | interface (name : String)
  | enum (name : String)
  | union (name : String)
  | list (of : GraphQLType)
  | nonNull (of : GraphQLType)
  deriving Repr, DecidableEq

/-- The `definition` side of a `ConcreteType` entry in the type map. -/
inductive SDefinition where
  | scalarDef (d : ScalarDefinition)
  | typeDef (d : TypeDefinition)
  | enumDef (d : EnumDefinition)
  | unionDef (name : String) (members : List TypeDefinition)
  deriving Repr

/-- `strawberry.schema.types.concrete_type.ConcreteType`: the pair stored
in `GraphQLCoreConverter.type_map`. -/
structure ConcreteType where
  definition : SDefinition
  implementation : GraphQLType
  deriving Repr

abbrev TypeMap := List (String × ConcreteType)

/-- Dictionary lookup keyed by emitted schema name. -/
def lookupName {α : Type} : List (String × α) → String → Option α
  | [], _ => none
  | (k, v) :: rest, n => if k == n then some v else lookupName rest n

/-- The scalar registry: language type (by name) to wire scalar
definition (a `ScalarWrapper` is unwrapped to its `_scalar_definition`,
so the registry stores definitions directly). -/
abbrev Registry := List (String × ScalarDefinition)

/-- A language type in scalar position: its identity and its optional
`_scalar_definition` attribute. -/
structure ScalarKey where
  typeName : String
  scalarDef : Option ScalarDefinition
  deriving Repr, DecidableEq

inductive ConvErr where
  | scalarAlreadyRegistered (name : String)
  | invalidTypeInputForUnion (name : String)
  | unexpectedType
  | missingScalarDefinition
  | assertionFailed
  deriving Repr, DecidableEq

inductive RType where
  | scalar (k : ScalarKey)
  | noneT
  | enumT (e : EnumDefinition)
  | objectT (td : TypeDefinition)
  | slist (of : RType)
  | soptional (of : RType)
  | sunion (name : String) (members : List TypeDefinition)
  | annotated (base : RType) (m0 : Nat) (ms : List Nat)
  deriving Repr

/-- The definition-lookup step of `from_scalar`: the scalar registry
entry if the type is registered, else the type's own
`_scalar_definition` attribute (absence of both is the source's
`AttributeError`). -/
def resolveScalarDefinition (reg : Registry) (k : ScalarKey) : Option ScalarDefinition :=
  match lookupName reg k.typeName with
  | some d => some d
  | none => k.scalarDef

/-- `scalar_definition.implementation` when present, else
`_make_scalar_type(scalar_definition)` (a `GraphQLScalarType` named after
the definition). -/
def scalarImplementation (d : ScalarDefinition) : GraphQLType :=
  match d.implementationName with
  | some n => .scalar n
  | none => .scalar d.name

/-- Python `self.type_map[scalar_name].definition != scalar_definition`:
dataclass equality, and values of different classes compare unequal. -/
def sdefMatchesScalar : SDefinition → ScalarDefinition → Bool
  | .scalarDef d, sd => d == sd
  | _, _ => false

/-- `GraphQLCoreConverter.from_scalar`.  A fresh name is registered; a
known name returns the cached implementation only when the definitions
agree, and raises `ScalarAlreadyRegisteredError` otherwise. -/
def fromScalar (reg : Registry) (k : ScalarKey) (tm : TypeMap) :
    Except ConvErr (GraphQLType × TypeMap) :=
  match resolveScalarDefinition reg k with
  | none => .error .missingScalarDefinition
  | some sd =>
    match lookupName tm sd.name with
    | none =>
      let impl := scalarImplementation sd
      .ok (impl, (sd.name, ⟨.scalarDef sd, impl⟩) :: tm)
    | some entry =>
      if sdefMatchesScalar entry.definition sd then .ok (entry.implementation, tm)
      else .error (.scalarAlreadyRegistered sd.name)

/-- `GraphQLCoreConverter.from_enum`: known names return the cached node
(asserting it is an enum node); fresh names are registered. -/
def fromEnum (e : EnumDefinition) (tm : TypeMap) :
    Except ConvErr (GraphQLType × TypeMap) :=
  match lookupName tm e.name with
  | some entry =>
    match entry.implementation with
    | .enum _ => .ok (entry.implementation, tm)
    | _ => .error .assertionFailed
  | none =>
    let impl := GraphQLType.enum e.name
    .ok (impl, (e.name, ⟨.enumDef e, impl⟩) :: tm)

/-- `GraphQLCoreConverter.from_input_object`: known names return the
cached node without comparing definitions; fresh names are registered
(the field thunk is lazy and not forced here). -/
def fromInputObject (td : TypeDefinition) (tm : TypeMap) :
    Except ConvErr (GraphQLType × TypeMap) :=
  match lookupName tm td.name with
  | some entry =>
    match entry.implementation with
    | .inputObject _ => .ok (entry.implementation, tm)
    | _ => .error .assertionFailed
  | none =>
    let impl := GraphQLType.inputObject td.name
    .ok (impl, (td.name, ⟨.typeDef td, impl⟩) :: tm)

theorem TypeDefinition.sizeOf_interfaces_lt (td : TypeDefinition) :
    sizeOf td.interfaces < sizeOf td := by
  cases td with
  | mk n ii io ifaces d =>
    simp only [TypeDefinition.interfaces, TypeDefinition.mk.sizeOf_spec]
    omega

mutual

/-- `GraphQLCoreConverter.from_interface`: same caching discipline as
`from_object`, recursing into the interface's own parent interfaces. -/
def fromInterface (td : TypeDefinition) (tm : TypeMap) :
    Except ConvErr (GraphQLType × TypeMap) :=
  match lookupName tm td.name with
  | some entry =>
    match entry.implementation with
    | .interface _ => .ok (entry.implementation, tm)
    | _ => .error .assertionFailed
  | none =>
    match fromInterfaceList td.interfaces tm with
    | .error e => .error e
    | .ok (_, tm1) =>
      let impl := GraphQLType.interface td.name
      .ok (impl, (td.name, ⟨.typeDef td, impl⟩) :: tm1)
termination_by sizeOf td
decreasing_by exact TypeDefinition.sizeOf_interfaces_lt td

/-- `list(map(self.from_interface, interfaces))`, threading the type
map. -/
def fromInterfaceList (l : List TypeDefinition) (tm : TypeMap) :
    Except ConvErr (List GraphQLType × TypeMap) :=
  match l with
  | [] => .ok ([], tm)
  | i :: rest =>
    match fromInterface i tm with
    | .error e => .error e
    | .ok (g, tm1) =>
      match fromInterfaceList rest tm1 with
      | .error e => .error e
      | .ok (gs, tm2) => .ok (g :: gs, tm2)
termination_by sizeOf l
decreasing_by
  · simp only [List.cons.sizeOf_spec]
    omega
  · simp only [List.cons.sizeOf_spec]
    omega

end

/-- `GraphQLCoreConverter.from_object`: known names return the cached
node with no definition comparison (only an `isinstance` assertion);
fresh names convert the implemented interfaces, then register.  The
field thunk is lazy and not forced here. -/
def fromObject (td : TypeDefinition) (tm : TypeMap) :
    Except ConvErr (GraphQLType × TypeMap) :=
  match lookupName tm td.name with
  | some entry =>
    match entry.implementation with
    | .object _ => .ok (entry.implementation, tm)
    | _ => .error .assertionFailed
  | none =>
    match fromInterfaceList td.interfaces tm with
    | .error e => .error e
    | .ok (_, tm1) =>
      let impl := GraphQLType.object td.name
      .ok (impl, (td.name, ⟨.typeDef td, impl⟩) :: tm1)

/-- The `from_type` dispatch for a class carrying `_type_definition`,
in source order: `compat.is_input_type`, then `compat.is_interface_type`,
then `compat.is_object_type` (`compat` probes the definition's
`is_input` / `is_interface` flags, per the spec's data model). -/
def fromClassTd (td : TypeDefinition) (tm : TypeMap) :
    Except ConvErr (GraphQLType × TypeMap) :=
  if td.isInput then fromInputObject td tm
  else if td.isInterface then fromInterface td tm
  else fromObject td tm

/-- The member loop of `from_union`: each member is converted via
`from_type`; a `GraphQLInputObjectType` raises
`InvalidTypeInputForUnion`, and anything other than a `GraphQLObjectType`
fails the assertion. -/
def fromUnionMembers (ms : List TypeDefinition) (tm : TypeMap) :
    Except ConvErr (List GraphQLType × TypeMap) :=
  match ms with
  | [] => .ok ([], tm)
  | m :: rest =>
    match fromClassTd m tm with
    | .error e => .error e
    | .ok (g, tm1) =>
      match g with
      | .inputObject n => .error (.invalidTypeInputForUnion n)
      | .object n =>
        match fromUnionMembers rest tm1 with
        | .error e => .error e
        | .ok (gs, tm2) => .ok (.object n :: gs, tm2)
      | _ => .error .assertionFailed

/-- `GraphQLCoreConverter.from_union`: known names return the cached
node; fresh names convert every member, then register. -/
def fromUnion (name : String) (members : List TypeDefinition) (tm : TypeMap) :
    Except ConvErr (GraphQLType × TypeMap) :=
  match lookupName tm name with
  | some entry =>
    match entry.implementation with
    | .union _ => .ok (entry.implementation, tm)
    | _ => .error .assertionFailed
  | none =>
    match fromUnionMembers members tm with
    | .error e => .error e
    | .ok (_, tm1) =>
      let impl := GraphQLType.union name
      .ok (impl, (name, ⟨.unionDef name members, impl⟩) :: tm1)

mutual

/-- `GraphQLCoreConverter.from_type`: strip `StrawberryAnnotated`
wrappers, then dispatch in source order (enum definitions, input types,
lists, interfaces, objects, unions, and finally `compat.is_scalar`; a
bare `StrawberryOptional` or an unclassifiable type is the source's
`TypeError`).  The generic check at the top of the source cannot fire:
`RType` has no generic-alias variant. -/
def fromType (reg : Registry) (t : RType) (tm : TypeMap) :
    Except ConvErr (GraphQLType × TypeMap) :=
  match t with
  | .annotated b _ _ => fromType reg b tm
  | .enumT e => fromEnum e tm
  | .objectT td => fromClassTd td tm
  | .slist of => fromList reg of tm
  | .soptional _ => .error .unexpectedType
  | .sunion name members => fromUnion name members tm
  | .scalar k =>
    if (lookupName reg k.typeName).isSome || k.scalarDef.isSome then fromScalar reg k tm
    else .error .unexpectedType
  | .noneT =>
    if (lookupName reg "NoneType").isSome then fromScalar reg ⟨"NoneType", none⟩ tm
    else .error .unexpectedType
termination_by 3 * sizeOf t
decreasing_by
  · simp only [RType.annotated.sizeOf_spec]
    omega
  · simp only [RType.slist.sizeOf_spec]
    omega

/-- `GraphQLCoreConverter.from_list`: the element goes through
`from_maybe_optional`. -/
def fromList (reg : Registry) (of : RType) (tm : TypeMap) :
    Except ConvErr (GraphQLType × TypeMap) :=
  match fromMaybeOptional reg of tm with
  | .error e => .error e
  | .ok (g, tm1) => .ok (.list g, tm1)
termination_by 3 * sizeOf of + 2
decreasing_by omega

/-- `GraphQLCoreConverter.from_maybe_optional`: strip
`StrawberryAnnotated` metadata; `None`/`NoneType` and
`StrawberryOptional` emit the nullable type (for an optional, its inner
type), everything else is wrapped in `GraphQLNonNull`.  This is the
single chokepoint through which `from_field`, `from_input_field` and
`from_argument` emit field and argument types. -/
def fromMaybeOptional (reg : Registry) (t : RType) (tm : TypeMap) :
    Except ConvErr (GraphQLType × TypeMap) :=
  match t with
  | .annotated b _ _ => fromMaybeOptional reg b tm
  | .noneT => fromType reg .noneT tm
  | .soptional of => fromType reg of tm
  | t' =>
    match fromType reg t' tm with
    | .error e => .error e
    | .ok (g, tm1) => .ok (.nonNull g, tm1)
termination_by 3 * sizeOf t + 1
decreasing_by
  · simp only [RType.annotated.sizeOf_spec]
    omega
  · simp
  · simp only [RType.soptional.sizeOf_spec]
    omega
  · omega

end

/-- Top-level shape of a GraphQL node stored in the type map: named type
implementations are nullable types, never `GraphQLNonNull` wrappers. -/
def implWF : GraphQLType → Bool
  | .nonNull _ => false
  | _ => true

/-- Every implementation stored in the type map is a nullable node. -/
def tmWF (tm : TypeMap) : Bool :=
  tm.all fun e => implWF e.2.implementation

theorem tmWF_lookup {tm : TypeMap} {n : String} {e : ConcreteType}
    (hwf : tmWF tm = true) (h : lookupName tm n = some e) :
    implWF e.implementation = true := by
  induction tm with
  | nil => simp [lookupName] at h
  | cons p rest ih =>
    obtain ⟨k, v⟩ := p
    rw [lookupName] at h
    rw [tmWF, List.all_cons, Bool.and_eq_true] at hwf
    by_cases hk : (k == n) = true
    · rw [if_pos hk] at h
      cases h
      exact hwf.1
    · rw [if_neg hk] at h
      exact ih hwf.2 h

theorem tmWF_cons {n : String} {e : ConcreteType} {tm : TypeMap}
    (h1 : implWF e.implementation = true) (h2 : tmWF tm = true) :
    tmWF ((n, e) :: tm) = true := by
  rw [tmWF, List.all_cons, Bool.and_eq_true]
  exact ⟨h1, h2⟩

theorem implWF_scalarImplementation (d : ScalarDefinition) :
    implWF (scalarImplementation d) = true := by
  unfold scalarImplementation
  split <;> rfl

theorem fromScalar_wf {reg : Registry} {k : ScalarKey} {tm : TypeMap}
    {g : GraphQLType} {tm' : TypeMap} (hwf : tmWF tm = true)
    (h : fromScalar reg k tm = .ok (g, tm')) :
    implWF g = true ∧ tmWF tm' = true := by
  unfold fromScalar at h
  split at h
  · simp at h
  · rename_i sd hrd
    split at h
    · simp only [Except.ok.injEq, Prod.mk.injEq] at h
      obtain ⟨hg, htm⟩ := h
      subst hg
      subst htm
      exact ⟨implWF_scalarImplementation sd,
        tmWF_cons (implWF_scalarImplementation sd) hwf⟩
    · rename_i entry hlk
      split at h
      · simp only [Except.ok.injEq, Prod.mk.injEq] at h
        obtain ⟨hg, htm⟩ := h
        subst hg
        subst htm
        exact ⟨tmWF_lookup hwf hlk, hwf⟩
      · simp at h

theorem fromEnum_wf {e : EnumDefinition} {tm : TypeMap}
    {g : GraphQLType} {tm' : TypeMap} (hwf : tmWF tm = true)
    (h : fromEnum e tm = .ok (g, tm')) :
    implWF g = true ∧ tmWF tm' = true := by
  unfold fromEnum at h
  split at h
  · rename_i entry hlk
    split at h
    · rename_i n hi
      simp only [Except.ok.injEq, Prod.mk.injEq] at h
      obtain ⟨hg, htm⟩ := h
      subst hg
      subst htm
      exact ⟨by rw [hi]; rfl, hwf⟩
    · simp at h
  · simp only [Except.ok.injEq, Prod.mk.injEq] at h
    obtain ⟨hg, htm⟩ := h
    subst hg
    subst htm
    exact ⟨rfl, tmWF_cons rfl hwf⟩

theorem fromInputObject_wf {td : TypeDefinition} {tm : TypeMap}
    {g : GraphQLType} {tm' : TypeMap} (hwf : tmWF tm = true)
    (h : fromInputObject td tm = .ok (g, tm')) :
    implWF g = true ∧ tmWF tm' = true := by
  unfold fromInputObject at h
  split at h
  · rename_i entry hlk
    split at h
    · rename_i n hi
      simp only [Except.ok.injEq, Prod.mk.injEq] at h
      obtain ⟨hg, htm⟩ := h
      subst hg
      subst htm
      exact ⟨by rw [hi]; rfl, hwf⟩
    · simp at h
  · simp only [Except.ok.injEq, Prod.mk.injEq] at h
    obtain ⟨hg, htm⟩ := h
    subst hg
    subst htm
    exact ⟨rfl, tmWF_cons rfl hwf⟩

mutual

theorem fromInterface_wf :
    ∀ (td : TypeDefinition) (tm : TypeMap) (g : GraphQLType) (tm' : TypeMap),
      tmWF tm = true → fromInterface td tm = .ok (g, tm') →
      implWF g = true ∧ tmWF tm' = true
  | td, tm, g, tm', hwf, h => by
    rw [fromInterface] at h
    split at h
    · rename_i entry hlk
      split at h
      · rename_i n hi
        simp only [Except.ok.injEq, Prod.mk.injEq] at h
        obtain ⟨hg, htm⟩ := h
        subst hg
        subst htm
        exact ⟨by rw [hi]; rfl, hwf⟩
      · simp at h
    · split at h
      · simp at h
      · rename_i gs tm1 hil
        simp only [Except.ok.injEq, Prod.mk.injEq] at h
        obtain ⟨hg, htm⟩ := h
        subst hg
        subst htm
        have h1 := fromInterfaceList_wf td.interfaces tm gs tm1 hwf hil
        exact ⟨rfl, tmWF_cons rfl h1⟩
  termination_by td => sizeOf td
  decreasing_by exact TypeDefinition.sizeOf_interfaces_lt td

theorem fromInterfaceList_wf :
    ∀ (l : List TypeDefinition) (tm : TypeMap) (gs : List GraphQLType) (tm' : TypeMap),
      tmWF tm = true → fromInterfaceList l tm = .ok (gs, tm') →
      tmWF tm' = true
  | [], tm, gs, tm', hwf, h => by
    rw [fromInterfaceList] at h
    simp only [Except.ok.injEq, Prod.mk.injEq] at h
    obtain ⟨_, htm⟩ := h
    subst htm
    exact hwf
  | i :: rest, tm, gs, tm', hwf, h => by
    rw [fromInterfaceList] at h
    split at h
    · simp at h
    · rename_i g1 tm1 hone
      split at h
      · simp at h
      · rename_i gs2 tm2 hrest
        simp only [Except.ok.injEq, Prod.mk.injEq] at h
        obtain ⟨_, htm⟩ := h
        subst htm
        have h1 := fromInterface_wf i tm g1 tm1 hwf hone
        exact fromInterfaceList_wf rest tm1 gs2 _ h1.2 hrest
  termination_by l => sizeOf l
  decreasing_by
    · simp only [List.cons.sizeOf_spec]
      omega
    · simp only [List.cons.sizeOf_spec]
      omega

end

theorem fromObject_wf {td : TypeDefinition} {tm : TypeMap}
    {g : GraphQLType} {tm' : TypeMap} (hwf : tmWF tm = true)
    (h : fromObject td tm = .ok (g, tm')) :
    implWF g = true ∧ tmWF tm' = true := by
  unfold fromObject at h
  split at h
  · rename_i entry hlk
    split at h
    · rename_i n hi
      simp only [Except.ok.injEq, Prod.mk.injEq] at h
      obtain ⟨hg, htm⟩ := h
      subst hg
      subst htm
      exact ⟨by rw [hi]; rfl, hwf⟩
    · simp at h
  · split at h
    · simp at h
    · rename_i gs tm1 hil
      simp only [Except.ok.injEq, Prod.mk.injEq] at h
      obtain ⟨hg, htm⟩ := h
      subst hg
      subst htm
      have h1 := fromInterfaceList_wf td.interfaces tm gs tm1 hwf hil
      exact ⟨rfl, tmWF_cons rfl h1⟩

theorem fromClassTd_wf {td : TypeDefinition} {tm : TypeMap}
    {g : GraphQLType} {tm' : TypeMap} (hwf : tmWF tm = true)
    (h : fromClassTd td tm = .ok (g, tm')) :
    implWF g = true ∧ tmWF tm' = true := by
  unfold fromClassTd at h
  split at h
  · exact fromInputObject_wf hwf h
  · split at h
    · exact fromInterface_wf td tm g tm' hwf h
    · exact fromObject_wf hwf h

theorem fromUnionMembers_wf :
    ∀ (ms : List TypeDefinition) (tm : TypeMap) (gs : List GraphQLType) (tm' : TypeMap),
      tmWF tm = true → fromUnionMembers ms tm = .ok (gs, tm') →
      tmWF tm' = true
  | [], tm, gs, tm', hwf, h => by
    rw [fromUnionMembers] at h
    simp only [Except.ok.injEq, Prod.mk.injEq] at h
    obtain ⟨_, htm⟩ := h
    subst htm
    exact hwf
  | m :: rest, tm, gs, tm', hwf, h => by
    rw [fromUnionMembers] at h
    split at h
    · simp at h
    · rename_i g1 tm1 hone
      split at h
      · simp at h
      · rename_i n
        split at h
        · simp at h
        · rename_i gs2 tm2 hrest
          simp only [Except.ok.injEq, Prod.mk.injEq] at h
          obtain ⟨_, htm⟩ := h
          subst htm
          have h1 := fromClassTd_wf hwf hone
          exact fromUnionMembers_wf rest tm1 gs2 _ h1.2 hrest
      · simp at h

theorem fromUnion_wf {name : String} {members : List TypeDefinition} {tm : TypeMap}
    {g : GraphQLType} {tm' : TypeMap} (hwf : tmWF tm = true)
    (h : fromUnion name members tm = .ok (g, tm')) :
    implWF g = true ∧ tmWF tm' = true := by
  unfold fromUnion at h
  split at h
  · rename_i entry hlk
    split at h
    · rename_i n hi
      simp only [Except.ok.injEq, Prod.mk.injEq] at h
      obtain ⟨hg, htm⟩ := h
      subst hg
      subst htm
      exact ⟨by rw [hi]; rfl, hwf⟩
    · simp at h
  · split at h
    · simp at h
    · rename_i gs tm1 hml
      simp only [Except.ok.injEq, Prod.mk.injEq] at h
      obtain ⟨hg, htm⟩ := h
      subst hg
      subst htm
      have h1 := fromUnionMembers_wf members tm gs tm1 hwf hml
      exact ⟨rfl, tmWF_cons rfl h1⟩

mutual

theorem fromType_wf :
    ∀ (reg : Registry) (t : RType) (tm : TypeMap) (g : GraphQLType) (tm' : TypeMap),
      tmWF tm = true → fromType reg t tm = .ok (g, tm') →
      implWF g = true ∧ tmWF tm' = true
  | reg, .annotated b m0 ms, tm, g, tm', hwf, h => by
    rw [fromType] at h
    exact fromType_wf reg b tm g tm' hwf h
  | reg, .enumT e, tm, g, tm', hwf, h => by
    rw [fromType] at h
    exact fromEnum_wf hwf h
  | reg, .objectT td, tm, g, tm', hwf, h => by
    rw [fromType] at h
    exact fromClassTd_wf hwf h
  | reg, .slist of, tm, g, tm', hwf, h => by
    rw [fromType] at h
    exact fromList_wf reg of tm g tm' hwf h
  | reg, .soptional of, tm, g, tm', hwf, h => by
    rw [fromType] at h
    simp at h
  | reg, .sunion name members, tm, g, tm', hwf, h => by
    rw [fromType] at h
    exact fromUnion_wf hwf h
  | reg, .scalar k, tm, g, tm', hwf, h => by
    rw [fromType] at h
    split at h
    · exact fromScalar_wf hwf h
    · simp at h
  | reg, .noneT, tm, g, tm', hwf, h => by
    rw [fromType] at h
    split at h
    · exact fromScalar_wf hwf h
    · simp at h
  termination_by _ t => 3 * sizeOf t

theorem fromList_wf :
    ∀ (reg : Registry) (of : RType) (tm : TypeMap) (g : GraphQLType) (tm' : TypeMap),
      tmWF tm = true → fromList reg of tm = .ok (g, tm') →
      implWF g = true ∧ tmWF tm' = true
  | reg, of, tm, g, tm', hwf, h => by
    rw [fromList] at h
    split at h
    · simp at h
    · rename_i g1 tm1 hmo
      simp only [Except.ok.injEq, Prod.mk.injEq] at h
      obtain ⟨hg, htm⟩ := h
      subst hg
      subst htm
      exact ⟨rfl, fromMaybeOptional_wf reg of tm g1 _ hwf hmo⟩
  termination_by _ of => 3 * sizeOf of + 2

theorem fromMaybeOptional_wf :
    ∀ (reg : Registry) (t : RType) (tm : TypeMap) (g : GraphQLType) (tm' : TypeMap),
      tmWF tm = true → fromMaybeOptional reg t tm = .ok (g, tm') →
      tmWF tm' = true
  | reg, .annotated b m0 ms, tm, g, tm', hwf, h => by
    rw [fromMaybeOptional] at h
    exact fromMaybeOptional_wf reg b tm g tm' hwf h
  | reg, .noneT, tm, g, tm', hwf, h => by
    rw [fromMaybeOptional] at h
    exact (fromType_wf reg .noneT tm g tm' hwf h).2
  | reg, .soptional of, tm, g, tm', hwf, h => by
    rw [fromMaybeOptional] at h
    exact (fromType_wf reg of tm g tm' hwf h).2
  | reg, .scalar k, tm, g, tm', hwf, h => by
    simp only [fromMaybeOptional.eq_def] at h
    split at h
    · simp at h
    · rename_i g1 tm1 hft
      simp only [Except.ok.injEq, Prod.mk.injEq] at h
      obtain ⟨hg, htm⟩ := h
      subst hg
      subst htm
      exact (fromType_wf reg _ tm g1 _ hwf hft).2
  | reg, .enumT e, tm, g, tm', hwf, h => by
    simp only [fromMaybeOptional.eq_def] at h
    split at h
    · simp at h
    · rename_i g1 tm1 hft
      simp only [Except.ok.injEq, Prod.mk.injEq] at h
      obtain ⟨hg, htm⟩ := h
      subst hg
      subst htm
      exact (fromType_wf reg _ tm g1 _ hwf hft).2
  | reg, .objectT td, tm, g, tm', hwf, h => by
    simp only [fromMaybeOptional.eq_def] at h
    split at h
    · simp at h
    · rename_i g1 tm1 hft
      simp only [Except.ok.injEq, Prod.mk.injEq] at h
      obtain ⟨hg, htm⟩ := h
      subst hg
      subst htm
      exact (fromType_wf reg _ tm g1 _ hwf hft).2
  | reg, .slist of, tm, g, tm', hwf, h => by
    simp only [fromMaybeOptional.eq_def] at h
    split at h
    · simp at h
    · rename_i g1 tm1 hft
      simp only [Except.ok.injEq, Prod.mk.injEq] at h
      obtain ⟨hg, htm⟩ := h
      subst hg
      subst htm
      exact (fromType_wf reg _ tm g1 _ hwf hft).2
  | reg, .sunion name members, tm, g, tm', hwf, h => by
    simp only [fromMaybeOptional.eq_def] at h
    split at h
    · simp at h
    · rename_i g1 tm1 hft
      simp only [Except.ok.injEq, Prod.mk.injEq] at h
      obtain ⟨hg, htm⟩ := h
      subst hg
      subst htm
      exact (fromType_wf reg _ tm g1 _ hwf hft).2
  termination_by _ t => 3 * sizeOf t + 1

end

/-- Full unwrap of `StrawberryAnnotated` metadata, as performed at the
top of `from_type` and `from_maybe_optional`. -/
def stripAnn : RType → RType
  | .annotated b _ _ => stripAnn b
  | t => t

/-- The shapes for which `from_maybe_optional` skips the `GraphQLNonNull`
wrapper: `None`/`NoneType` and `StrawberryOptional`. -/
def isNullableShape : RType → Bool
  | .soptional _ => true
  | .noneT => true
  | _ => false

theorem stripAnn_ne_annotated :
    ∀ (t b : RType) (m0 : Nat) (ms : List Nat), stripAnn t ≠ .annotated b m0 ms
  | .annotated b' m0' ms', b, m0, ms => by
    rw [stripAnn]
    exact stripAnn_ne_annotated b' b m0 ms
  | .scalar _, _, _, _ => fun hc => nomatch hc
  | .noneT, _, _, _ => fun hc => nomatch hc
  | .enumT _, _, _, _ => fun hc => nomatch hc
  | .objectT _, _, _, _ => fun hc => nomatch hc
  | .slist _, _, _, _ => fun hc => nomatch hc
  | .soptional _, _, _, _ => fun hc => nomatch hc
  | .sunion _ _, _, _, _ => fun hc => nomatch hc

theorem fromMaybeOptional_stripAnn (reg : Registry) :
    ∀ (t : RType) (tm : TypeMap),
      fromMaybeOptional reg t tm = fromMaybeOptional reg (stripAnn t) tm
  | .annotated b m0 ms, tm => by
    rw [fromMaybeOptional]
    rw [show stripAnn (.annotated b m0 ms) = stripAnn b from rfl]
    exact fromMaybeOptional_stripAnn reg b tm
  | .scalar _, _ => rfl
  | .noneT, _ => rfl
  | .enumT _, _ => rfl
  | .objectT _, _ => rfl
  | .slist _, _ => rfl
  | .soptional _, _ => rfl
  | .sunion _ _, _ => rfl

/-- C2: every field/argument type goes through `from_maybe_optional`, and
the emitted GraphQL type is wrapped in `GraphQLNonNull` exactly when the
resolved strawberry type (metadata unwrapped) is neither a
`StrawberryOptional` nor `None`/`NoneType`; for an optional the emitted
type is the conversion of its inner type, nullable at the top.  Hence a
field declared `Optional[str]` is nullable in the schema and a field
declared `str` is non-null (see the witness). -/
theorem claim_C2 (reg : Registry) (t : RType) (tm : TypeMap)
    (hwf : tmWF tm = true) (g : GraphQLType) (tm' : TypeMap)
    (h : fromMaybeOptional reg t tm = .ok (g, tm')) :
    ((∃ u, g = .nonNull u) ↔ isNullableShape (stripAnn t) = false)
    ∧ (∀ inner, stripAnn t = .soptional inner →
        fromMaybeOptional reg t tm = fromType reg inner tm) := by
  rw [fromMaybeOptional_stripAnn reg t tm] at h
  cases hs : stripAnn t with
  | annotated b m0 ms => exact absurd hs (stripAnn_ne_annotated t b m0 ms)
  | noneT =>
    rw [hs] at h
    rw [fromMaybeOptional] at h
    have hw := fromType_wf reg .noneT tm g tm' hwf h
    refine ⟨⟨fun ⟨u, hu⟩ => ?_, fun hfalse => ?_⟩, fun inner hinner => ?_⟩
    · subst hu
      simp [implWF] at hw
    · rw [isNullableShape] at hfalse
      cases hfalse
    · exact nomatch hinner
  | soptional inner0 =>
    rw [hs] at h
    rw [fromMaybeOptional] at h
    have hw := fromType_wf reg inner0 tm g tm' hwf h
    refine ⟨⟨fun ⟨u, hu⟩ => ?_, fun hfalse => ?_⟩, fun inner hinner => ?_⟩
    · subst hu
      simp [implWF] at hw
    · rw [isNullableShape] at hfalse
      cases hfalse
    · cases hinner
      rw [fromMaybeOptional_stripAnn reg t tm, hs, fromMaybeOptional]
  | scalar k =>
    rw [hs] at h
    simp only [fromMaybeOptional.eq_def] at h
    split at h
    · simp at h
    · rename_i g1 tm1 hft
      simp only [Except.ok.injEq, Prod.mk.injEq] at h
      obtain ⟨hg, htm⟩ := h
      subst hg
      refine ⟨⟨fun _ => rfl, fun _ => ⟨g1, rfl⟩⟩, fun inner hinner => nomatch hinner⟩
  | enumT e =>
    rw [hs] at h
    simp only [fromMaybeOptional.eq_def] at h
    split at h
    · simp at h
    · rename_i g1 tm1 hft
      simp only [Except.ok.injEq, Prod.mk.injEq] at h
      obtain ⟨hg, htm⟩ := h
      subst hg
      refine ⟨⟨fun _ => rfl, fun _ => ⟨g1, rfl⟩⟩, fun inner hinner => nomatch hinner⟩
  | objectT td =>
    rw [hs] at h
    simp only [fromMaybeOptional.eq_def] at h
    split at h
    · simp at h
    · rename_i g1 tm1 hft
      simp only [Except.ok.injEq, Prod.mk.injEq] at h
      obtain ⟨hg, htm⟩ := h
      subst hg
      refine ⟨⟨fun _ => rfl, fun _ => ⟨g1, rfl⟩⟩, fun inner hinner => nomatch hinner⟩
  | slist of =>
    rw [hs] at h
    simp only [fromMaybeOptional.eq_def] at h
    split at h
    · simp at h
    · rename_i g1 tm1 hft
      simp only [Except.ok.injEq, Prod.mk.injEq] at h
      obtain ⟨hg, htm⟩ := h
      subst hg
      refine ⟨⟨fun _ => rfl, fun _ => ⟨g1, rfl⟩⟩, fun inner hinner => nomatch hinner⟩
  | sunion n ms =>
    rw [hs] at h
    simp only [fromMaybeOptional.eq_def] at h
    split at h
    · simp at h
    · rename_i g1 tm1 hft
      simp only [Except.ok.injEq, Prod.mk.injEq] at h
      obtain ⟨hg, htm⟩ := h
      subst hg
      refine ⟨⟨fun _ => rfl, fun _ => ⟨g1, rfl⟩⟩, fun inner hinner => nomatch hinner⟩

/-- The registry used by the C2 witness: `str` maps to the `String` wire
scalar. -/
def strRegistry : Registry := [("str", ⟨"String", none⟩)]

def strKey : ScalarKey := ⟨"str", none⟩

def tmString : TypeMap :=
  [("String", ⟨.scalarDef ⟨"String", none⟩, .scalar "String"⟩)]

theorem claim_C2_witness :
    tmWF ([] : TypeMap) = true
    ∧ fromMaybeOptional strRegistry (.soptional (.scalar strKey)) []
        = .ok (.scalar "String", tmString)
    ∧ fromMaybeOptional strRegistry (.scalar strKey) []
        = .ok (.nonNull (.scalar "String"), tmString)
    ∧ ((∃ u, (GraphQLType.scalar "String") = .nonNull u)
        ↔ isNullableShape (stripAnn (.soptional (.scalar strKey))) = false)
    ∧ ((∃ u, (GraphQLType.nonNull (.scalar "String")) = .nonNull u)
        ↔ isNullableShape (stripAnn (.scalar strKey)) = false) := by
  have h1 : fromMaybeOptional strRegistry (.soptional (.scalar strKey)) []
      = .ok (.scalar "String", tmString) := by
    rw [fromMaybeOptional, fromType]
    rfl
  have h2 : fromMaybeOptional strRegistry (.scalar strKey) []
      = .ok (.nonNull (.scalar "String"), tmString) := by
    simp only [fromMaybeOptional.eq_def]
    rw [fromType]
    rfl
  refine ⟨rfl, h1, h2, ?_, ?_⟩
  · exact (claim_C2 strRegistry (.soptional (.scalar strKey)) [] rfl
      (.scalar "String") tmString h1).1
  · exact (claim_C2 strRegistry (.scalar strKey) [] rfl
      (.nonNull (.scalar "String")) tmString h2).1

/-- Two distinct object definitions that share the emitted name `X`. -/
def tdX1 : TypeDefinition := .mk "X" false false [] none

def tdX2 : TypeDefinition := .mk "X" false false [] (some "a second definition")

def tmAfterX1 : TypeMap := [("X", ⟨.typeDef tdX1, .object "X"⟩)]

/-- C3 counterexample: requesting the same emitted name twice with two
definitions that differ does NOT fail for object types — `from_object`
returns the first definition's cached node unchanged, with no
conflicting-definition check. -/
theorem claim_C3_counterexample :
    tdX1 ≠ tdX2
    ∧ tdX1.name = tdX2.name
    ∧ fromObject tdX1 [] = .ok (.object "X", tmAfterX1)
    ∧ fromObject tdX2 tmAfterX1 = .ok (.object "X", tmAfterX1) := by
  refine ⟨?_, rfl, ?_, ?_⟩
  · intro hc
    simp [tdX1, tdX2] at hc
  · unfold fromObject
    rw [show lookupName ([] : TypeMap) (tdX1.name) = none from rfl]
    rw [show tdX1.interfaces = ([] : List TypeDefinition) from rfl]
    rw [fromInterfaceList]
    rfl
  · unfold fromObject
    rfl

/-- C3 (amended): only scalar conversion enforces the collision policy —
a second request for a registered scalar name fails with
`ScalarAlreadyRegisteredError` when the definitions differ and returns
the cached node when they agree; object-type requests for a known name
return the cached node unchanged with no definition comparison at all
(see the counterexample). -/
theorem claim_C3 :
    (∀ (reg : Registry) (k : ScalarKey) (sd : ScalarDefinition) (tm : TypeMap)
        (e : ConcreteType),
        resolveScalarDefinition reg k = some sd →
        lookupName tm sd.name = some e →
        (sdefMatchesScalar e.definition sd = false →
          fromScalar reg k tm = .error (.scalarAlreadyRegistered sd.name))
        ∧ (sdefMatchesScalar e.definition sd = true →
          fromScalar reg k tm = .ok (e.implementation, tm)))
    ∧ (∀ (td : TypeDefinition) (tm : TypeMap) (e : ConcreteType) (n : String),
        lookupName tm td.name = some e →
        e.implementation = .object n →
        fromObject td tm = .ok (e.implementation, tm)) := by
  constructor
  · intro reg k sd tm e hrd hlk
    constructor
    · intro hm
      unfold fromScalar
      rw [hrd]
      simp only [hlk, hm, Bool.false_eq_true, if_false]
    · intro hm
      unfold fromScalar
      rw [hrd]
      simp only [hlk, hm, if_true]
  · intro td tm e n hlk hobj
    unfold fromObject
    simp only [hlk]
    rw [hobj]

theorem claim_C3_witness :
    resolveScalarDefinition strRegistry strKey = some ⟨"String", none⟩
    ∧ lookupName tmString "String" = some ⟨.scalarDef ⟨"String", none⟩, .scalar "String"⟩
    ∧ sdefMatchesScalar (.scalarDef ⟨"String", none⟩) ⟨"String", some "Other"⟩ = false
    ∧ fromScalar [("str", ⟨"String", some "Other"⟩)] strKey tmString
        = .error (.scalarAlreadyRegistered "String")
    ∧ fromScalar strRegistry strKey tmString = .ok (.scalar "String", tmString)
    ∧ lookupName tmAfterX1 (tdX2.name) = some ⟨.typeDef tdX1, .object "X"⟩
    ∧ fromObject tdX2 tmAfterX1 = .ok (.object "X", tmAfterX1) := by
  refine ⟨rfl, rfl, rfl, ?_, ?_, rfl, ?_⟩
  · have h := ((claim_C3.1 [("str", ⟨"String", some "Other"⟩)] strKey
      ⟨"String", some "Other"⟩ tmString ⟨.scalarDef ⟨"String", none⟩, .scalar "String"⟩
      rfl rfl).1 rfl)
    simpa using h
  · have h := ((claim_C3.1 strRegistry strKey ⟨"String", none⟩ tmString
      ⟨.scalarDef ⟨"String", none⟩, .scalar "String"⟩ rfl rfl).2 rfl)
    simpa using h
  · have h := claim_C3.2 tdX2 tmAfterX1 ⟨.typeDef tdX1, .object "X"⟩ "X" rfl rfl
    simpa using h

/-!
Part 4 embeds field dispatch: `StrawberryField` flags and `get_result`
(`strawberry/field.py`), `current_info` (`strawberry/types/info.py`) and
the resolver produced by `GraphQLCoreConverter.from_resolver`
(`strawberry/schema/schema_converter.py`).

Runtime values are `Val := Nat`; resolver and permission behavior that
lives outside the embedded files (the user's resolver body, the
resolver-parameter classification of `types/fields/resolver.py`) enters
as explicit function parameters.
-/

abbrev Val := Nat

/-- A permission class: whether
`inspect.iscoroutinefunction(permission_class.has_permission)` holds, the
verdict `has_permission` returns, and its optional `message`. -/
structure PermissionClass where
  hasPermissionAsync : Bool
  grant : Bool
  message : Option String
  deriving Repr, DecidableEq

/-- The statically inspectable part of a bound `StrawberryResolver`:
`StrawberryResolver.is_async`. -/
structure ResolverModel where
  isAsync : Bool
  deriving Repr, DecidableEq

/-- The `StrawberryField` state the dispatch claims exercise:
`python_name`, the explicitly passed permission classes, the permission
classes discovered in the field type's `Annotated` metadata, and the
optional bound resolver. -/
structure FieldModel where
  pythonName : String
  explicitPermissionClasses : List PermissionClass
  annotatedPermissions : List PermissionClass
  baseResolver : Option ResolverModel
  deriving Repr, DecidableEq

/-- `StrawberryField.permission_classes`: the permissions discovered in
the `Annotated` metadata of the field's type followed by the explicit
ones (`annotated_permissions + self.explicit_permission_classes`). -/
def fieldPermissionClasses (f : FieldModel) : List PermissionClass :=
  f.annotatedPermissions ++ f.explicitPermissionClasses

/-- `StrawberryField.is_basic_field`: no base resolver and no permission
classes. -/
def isBasicField (f : FieldModel) : Bool :=
  !f.baseResolver.isSome && (fieldPermissionClasses f).isEmpty

/-- `StrawberryField._has_async_permission_classes`. -/
def hasAsyncPermissionClasses (f : FieldModel) : Bool :=
  (fieldPermissionClasses f).any (fun p => p.hasPermissionAsync)

/-- `StrawberryField._has_async_base_resolver`. -/
def hasAsyncBaseResolver (f : FieldModel) : Bool :=
  match f.baseResolver with
  | some r => r.isAsync
  | none => false

/-- `StrawberryField.is_async`. -/
def fieldIsAsync (f : FieldModel) : Bool :=
  hasAsyncPermissionClasses f || hasAsyncBaseResolver f

/-- The request-context object built per call
(`Info(_raw_info=info, _field=field)`), identified by the raw GraphQL
info it wraps. -/
structure Info where
  rawInfo : Nat
  deriving Repr, DecidableEq

/-- Runtime state: the `current_info` context variable and an
instrumentation counter for `Info` construction (the spec's suggested
test hook for the basic-field fast path). -/
structure RunState where
  currentInfo : Option Info
  infoBuilt : Nat
  deriving Repr, DecidableEq

inductive FieldErr where
  | permissionError (message : Option String)
  deriving Repr, DecidableEq

/-- `contextvars.ContextVar.set`: store the new value and return a token
carrying the previous one. -/
def contextVarSet (v : Option Info) (s : RunState) : Option Info × RunState :=
  (s.currentInfo, { s with currentInfo := v })

/-- `contextvars.ContextVar.reset`: restore the token's value. -/
def contextVarReset (token : Option Info) (s : RunState) : RunState :=
  { s with currentInfo := token }

/-- `try ... finally ...`: the finaliser runs both when the body returns
and when it raises (the body's `Except` result is passed through
untouched). -/
def tryFinallyE {α : Type} (body : RunState → Except FieldErr α × RunState)
    (fin : RunState → RunState) (s : RunState) : Except FieldErr α × RunState :=
  let (r, s1) := body s
  (r, fin s1)

/-- `StrawberryField.get_result`: `old_info = current_info.set(info)`,
then under `try/finally` call the base resolver when one is bound, else
`default_resolver(source, python_name)`, and finally
`current_info.reset(old_info)`.  `base` is the behavior of the bound
resolver (arbitrary user code, which may read or even nest resolver
calls through the state); `defaultResolver` is
`field.default_resolver` (`getattr`). -/
def getResult (f : FieldModel)
    (base : List Val → List (String × Val) → RunState → Except FieldErr Val × RunState)
    (defaultResolver : Val → String → Val)
    (source : Val) (info : Option Info)
    (args : List Val) (kwargs : List (String × Val))
    (s : RunState) : Except FieldErr Val × RunState :=
  let (oldInfo, s1) := contextVarSet info s
  tryFinallyE
    (fun s2 =>
      match f.baseResolver with
      | some _ => base args kwargs s2
      | none => (.ok (defaultResolver source f.pythonName), s2))
    (contextVarReset oldInfo) s1

/-- Which closure `from_resolver` returns: `_get_basic_result` for basic
fields, `_async_resolver` when `field.is_async`, else `_resolver`. -/
inductive ResolverKind where
  | basic
  | sync
  | async
  deriving Repr, DecidableEq

def fromResolverKind (f : FieldModel) : ResolverKind :=
  if isBasicField f then .basic
  else if fieldIsAsync f then .async
  else .sync

/-- `_strawberry_info_from_graphql`: builds an `Info` from the raw
GraphQL info, bumping the instrumentation counter. -/
def mkInfo (raw : Nat) (s : RunState) : Info × RunState :=
  (⟨raw⟩, { s with infoBuilt := s.infoBuilt + 1 })

/-- `_check_permissions`: instantiate each permission class in order and
abort with `PermissionError(message)` on the first refusal. -/
def checkPermissions : List PermissionClass → Except FieldErr Unit
  | [] => .ok ()
  | p :: rest =>
    if p.grant then checkPermissions rest
    else .error (.permissionError p.message)

/-- The behavior of the resolver closure produced by `from_resolver`:
`_get_basic_result` ignores the incoming GraphQL info and keyword
arguments and calls `get_result` with `info=None`, an empty args list
and empty kwargs — no `Info` is built; the non-basic closures build a
strawberry `Info` from the raw info, run the permission checks, and call
`get_result` with the keyword arguments (argument conversion and
self/root/info parameter wiring are pass-through here: the
resolver-parameter classification lives in `types/fields/resolver.py`,
outside the embedded files). -/
def runFieldResolver (f : FieldModel)
    (base : List Val → List (String × Val) → RunState → Except FieldErr Val × RunState)
    (defaultResolver : Val → String → Val)
    (source : Val) (rawInfo : Nat) (kwargs : List (String × Val))
    (s : RunState) : Except FieldErr Val × RunState :=
  if isBasicField f then
    getResult f base defaultResolver source none [] [] s
  else
    let (sinfo, s1) := mkInfo rawInfo s
    match checkPermissions (fieldPermissionClasses f) with
    | .error e => (.error e, s1)
    | .ok _ => getResult f base defaultResolver source (some sinfo) [] kwargs s1

/-- C4: for a field with no base resolver and no permission classes
(explicit or discovered in `Annotated` metadata), `from_resolver`
returns the basic closure, which invokes `get_result` with `info=None`,
an empty args list and empty kwargs; no `Info` object is ever
constructed (the run leaves the state — including the `Info`
construction counter — unchanged) and the value is read through the
default resolver. -/
theorem claim_C4 (f : FieldModel)
    (base : List Val → List (String × Val) → RunState → Except FieldErr Val × RunState)
    (defaultResolver : Val → String → Val)
    (source : Val) (rawInfo : Nat) (kwargs : List (String × Val)) (s : RunState)
    (hbasic : isBasicField f = true) :
    fromResolverKind f = .basic
    ∧ runFieldResolver f base defaultResolver source rawInfo kwargs s
        = getResult f base defaultResolver source none [] [] s
    ∧ runFieldResolver f base defaultResolver source rawInfo kwargs s
        = (.ok (defaultResolver source f.pythonName), s) := by
  have hnone : f.baseResolver = none := by
    cases hb : f.baseResolver with
    | none => rfl
    | some r =>
      rw [isBasicField, hb] at hbasic
      simp at hbasic
  refine ⟨?_, ?_, ?_⟩
  · rw [fromResolverKind, if_pos hbasic]
  · rw [runFieldResolver, if_pos hbasic]
  · rw [runFieldResolver, if_pos hbasic, getResult]
    simp [contextVarSet, tryFinallyE, contextVarReset, hnone]

/-- A concrete basic field: no resolver, no permissions. -/
def basicField : FieldModel := ⟨"age", [], [], none⟩

def noopBase : List Val → List (String × Val) → RunState → Except FieldErr Val × RunState :=
  fun _ _ s => (.ok 0, s)

theorem claim_C4_witness :
    isBasicField basicField = true
    ∧ (fromResolverKind basicField = .basic
      ∧ runFieldResolver basicField noopBase (fun src _ => src + 1) 41 7 [("x", 1)] ⟨none, 0⟩
          = getResult basicField noopBase (fun src _ => src + 1) 41 none [] [] ⟨none, 0⟩
      ∧ runFieldResolver basicField noopBase (fun src _ => src + 1) 41 7 [("x", 1)] ⟨none, 0⟩
          = (.ok 42, ⟨none, 0⟩)) :=
  ⟨rfl, claim_C4 basicField noopBase (fun src _ => src + 1) 41 7 [("x", 1)] ⟨none, 0⟩ rfl⟩

theorem fieldIsAsync_iff (f : FieldModel) :
    fieldIsAsync f = true ↔
      ((∃ p ∈ fieldPermissionClasses f, p.hasPermissionAsync = true)
        ∨ (∃ r, f.baseResolver = some r ∧ r.isAsync = true)) := by
  rw [fieldIsAsync, Bool.or_eq_true]
  refine or_congr ?_ ?_
  · rw [hasAsyncPermissionClasses, List.any_eq_true]
  · cases hb : f.baseResolver with
    | none => simp [hasAsyncBaseResolver, hb]
    | some r => simp [hasAsyncBaseResolver, hb]

/-- C5: for a non-basic field, the resolver produced by `from_resolver`
is the asynchronous closure exactly when some permission class has an
asynchronous `has_permission` or the base resolver is asynchronous;
otherwise the produced closure is the synchronous `_resolver`, which
runs start to finish with no suspension point. -/
theorem claim_C5 (f : FieldModel) (hnb : isBasicField f = false) :
    (fromResolverKind f = .async ↔
      ((∃ p ∈ fieldPermissionClasses f, p.hasPermissionAsync = true)
        ∨ (∃ r, f.baseResolver = some r ∧ r.isAsync = true)))
    ∧ (fromResolverKind f ≠ .async → fromResolverKind f = .sync) := by
  have hk : fromResolverKind f = if fieldIsAsync f then .async else .sync := by
    rw [fromResolverKind, hnb]
    simp
  constructor
  · rw [hk]
    by_cases ha : fieldIsAsync f = true
    · rw [if_pos ha]
      exact iff_of_true rfl ((fieldIsAsync_iff f).1 ha)
    · rw [if_neg ha]
      refine iff_of_false (by simp) (fun hc => ha ((fieldIsAsync_iff f).2 hc))
  · intro hne
    rw [hk] at hne ⊢
    by_cases ha : fieldIsAsync f = true
    · rw [if_pos ha] at hne
      exact absurd rfl hne
    · rw [if_neg ha]

/-- A concrete non-basic field with one asynchronous permission class
and a synchronous base resolver. -/
def asyncPermField : FieldModel :=
  ⟨"secret", [⟨true, true, none⟩], [], some ⟨false⟩⟩

theorem claim_C5_witness :
    isBasicField asyncPermField = false
    ∧ ((fromResolverKind asyncPermField = .async ↔
        ((∃ p ∈ fieldPermissionClasses asyncPermField, p.hasPermissionAsync = true)
          ∨ (∃ r, asyncPermField.baseResolver = some r ∧ r.isAsync = true)))
      ∧ (fromResolverKind asyncPermField ≠ .async →
          fromResolverKind asyncPermField = .sync)) :=
  ⟨rfl, claim_C5 asyncPermField rfl⟩

/-- C6: `get_result` sets `current_info` to the supplied info
immediately before running the resolver body, and on every exit path —
the body returning normally or raising (any `Except` result) — the
variable is restored to its previous value.  The body is universally
quantified, so the restoration holds in particular for bodies that
themselves nest further `get_result` calls and mutate the variable
arbitrarily. -/
theorem claim_C6 (f : FieldModel)
    (base : List Val → List (String × Val) → RunState → Except FieldErr Val × RunState)
    (defaultResolver : Val → String → Val)
    (source : Val) (info : Option Info)
    (args : List Val) (kwargs : List (String × Val)) (s : RunState) :
    (getResult f base defaultResolver source info args kwargs s).2.currentInfo
      = s.currentInfo
    ∧ (f.baseResolver.isSome = true →
        getResult f base defaultResolver source info args kwargs s
          = ((base args kwargs { s with currentInfo := info }).1,
             { (base args kwargs { s with currentInfo := info }).2 with
                currentInfo := s.currentInfo })) := by
  constructor
  · cases hb : f.baseResolver <;>
      simp [getResult, contextVarSet, tryFinallyE, contextVarReset, hb]
  · intro hsome
    cases hb : f.baseResolver with
    | none => rw [hb] at hsome; cases hsome
    | some r =>
      simp [getResult, contextVarSet, tryFinallyE, contextVarReset, hb]

/-- A nested scenario: the outer field's resolver body itself resolves
an inner basic field through `get_result`. -/
def outerField : FieldModel := ⟨"outer", [], [], some ⟨false⟩⟩

def nestedBase : List Val → List (String × Val) → RunState → Except FieldErr Val × RunState :=
  fun _ _ s => getResult basicField noopBase (fun src _ => src) 7 (some ⟨99⟩) [] [] s

theorem claim_C6_witness :
    outerField.baseResolver.isSome = true
    ∧ ((getResult outerField nestedBase (fun src _ => src) 5 (some ⟨1⟩) [] []
          ⟨some ⟨0⟩, 0⟩).2.currentInfo = (⟨some ⟨0⟩, 0⟩ : RunState).currentInfo
      ∧ (outerField.baseResolver.isSome = true →
          getResult outerField nestedBase (fun src _ => src) 5 (some ⟨1⟩) [] []
              ⟨some ⟨0⟩, 0⟩
            = ((nestedBase [] [] { (⟨some ⟨0⟩, 0⟩ : RunState) with currentInfo := some ⟨1⟩ }).1,
               { (nestedBase [] [] { (⟨some ⟨0⟩, 0⟩ : RunState) with currentInfo := some ⟨1⟩ }).2 with
                  currentInfo := (⟨some ⟨0⟩, 0⟩ : RunState).currentInfo }))) :=
  ⟨rfl, claim_C6 outerField nestedBase (fun src _ => src) 5 (some ⟨1⟩) [] [] ⟨some ⟨0⟩, 0⟩⟩

/-!
Part 5 embeds argument construction (`strawberry/arguments.py`):
`StrawberryArgument._parse_annotated`, the scan of the `Annotated`
metadata for `StrawberryArgumentAnnotation` override blocks.
-/

/-- A `StrawberryArgumentAnnotation` override block (the dataclass built
by `strawberry.argument(...)`). -/
structure ArgumentAnnotationBlock where
  descriptionSources : Option Nat
  description : Option String
  name : Option String
  deprecationReason : Option String
  directives : List Nat
  deriving Repr, DecidableEq

/-- One metadata value of an argument's `Annotated` type: an override
block or any other value (`StrawberryLazyReference` handling is outside
the modelled fragment — `strawberry/lazy_type.py` is not among the
embedded files). -/
inductive ArgMeta where
  | overrideBlock (a : ArgumentAnnotationBlock)
  | otherMeta (n : Nat)
  deriving Repr, DecidableEq

def isOverrideBlock : ArgMeta → Bool
  | .overrideBlock _ => true
  | _ => false

/-- The attributes of a `StrawberryArgument` that `_parse_annotated` may
override. -/
structure ArgumentState where
  pythonName : String
  graphqlName : Option String
  descriptionSources : Option Nat
  description : Option String
  deprecationReason : Option String
  directives : List Nat
  deriving Repr, DecidableEq

inductive ArgErr where
  | multipleStrawberryArguments (argumentName : String)
  deriving Repr, DecidableEq

/-- The loop of `StrawberryArgument._parse_annotated` over the
`Annotated` metadata, carrying the `argument_annotation_seen` flag: the
first override block replaces the argument's description sources,
description, GraphQL name, deprecation reason and directives; a second
one raises `MultipleStrawberryArgumentsError` naming the argument. -/
def parseAnnotatedArgs (seen : Bool) (s : ArgumentState) :
    List ArgMeta → Except ArgErr ArgumentState
  | [] => .ok s
  | .overrideBlock a :: rest =>
    if seen then .error (.multipleStrawberryArguments s.pythonName)
    else
      parseAnnotatedArgs true
        { s with
            descriptionSources := a.descriptionSources
            description := a.description
            graphqlName := a.name
            deprecationReason := a.deprecationReason
            directives := a.directives } rest
  | .otherMeta _ :: rest => parseAnnotatedArgs seen s rest

/-- `StrawberryArgument.__init__`, which ends by running
`self._parse_annotated()` with the flag initially unset. -/
def mkStrawberryArgument (s : ArgumentState) (metas : List ArgMeta) :
    Except ArgErr ArgumentState :=
  parseAnnotatedArgs false s metas

theorem parseAnnotatedArgs_seen_error :
    ∀ (metas : List ArgMeta) (s : ArgumentState),
      1 ≤ (metas.filter isOverrideBlock).length →
      parseAnnotatedArgs true s metas
        = .error (.multipleStrawberryArguments s.pythonName)
  | [], s, h => by simp at h
  | .overrideBlock a :: rest, s, h => by
    rw [parseAnnotatedArgs, if_pos rfl]
  | .otherMeta n :: rest, s, h => by
    rw [parseAnnotatedArgs]
    exact parseAnnotatedArgs_seen_error rest s (by simpa [isOverrideBlock] using h)

theorem parseAnnotatedArgs_no_override :
    ∀ (metas : List ArgMeta) (seen : Bool) (s : ArgumentState),
      metas.filter isOverrideBlock = [] →
      parseAnnotatedArgs seen s metas = .ok s
  | [], _, _, _ => rfl
  | .overrideBlock a :: rest, seen, s, h => by
    simp [isOverrideBlock] at h
  | .otherMeta n :: rest, seen, s, h => by
    rw [parseAnnotatedArgs]
    exact parseAnnotatedArgs_no_override rest seen s (by simpa [isOverrideBlock] using h)

/-- C7: constructing a `StrawberryArgument` whose `Annotated` metadata
holds two or more override blocks fails with
`MultipleStrawberryArgumentsError` naming that argument; with exactly
one block construction succeeds and the block's name, description,
description sources, deprecation reason and directives replace the
argument's own, the python name staying intact. -/
theorem claim_C7 (s : ArgumentState) (metas : List ArgMeta) :
    (2 ≤ (metas.filter isOverrideBlock).length →
      mkStrawberryArgument s metas
        = .error (.multipleStrawberryArguments s.pythonName))
    ∧ (∀ a, metas.filter isOverrideBlock = [.overrideBlock a] →
      mkStrawberryArgument s metas
        = .ok { s with
            descriptionSources := a.descriptionSources
            description := a.description
            graphqlName := a.name
            deprecationReason := a.deprecationReason
            directives := a.directives }) := by
  rw [mkStrawberryArgument]
  induction metas generalizing s with
  | nil =>
    refine ⟨fun h2 => by simp at h2, fun a ha => by simp at ha⟩
  | cons m rest ih =>
    cases m with
    | overrideBlock b =>
      have hcons : List.filter isOverrideBlock (ArgMeta.overrideBlock b :: rest)
          = ArgMeta.overrideBlock b :: List.filter isOverrideBlock rest := by
        simp [isOverrideBlock]
      refine ⟨fun h2 => ?_, fun a ha => ?_⟩
      · rw [parseAnnotatedArgs, if_neg (by simp)]
        refine parseAnnotatedArgs_seen_error rest _ ?_
        rw [hcons, List.length_cons] at h2
        omega
      · rw [hcons, List.cons.injEq] at ha
        obtain ⟨hba, hrest⟩ := ha
        have hb : b = a := by injection hba
        subst hb
        rw [parseAnnotatedArgs, if_neg (by simp)]
        exact parseAnnotatedArgs_no_override rest true _ hrest
    | otherMeta n =>
      refine ⟨fun h2 => ?_, fun a ha => ?_⟩
      · rw [parseAnnotatedArgs]
        exact (ih s).1 (by simpa [isOverrideBlock] using h2)
      · rw [parseAnnotatedArgs]
        exact (ih s).2 a (by simpa [isOverrideBlock] using ha)

def plainArgState : ArgumentState := ⟨"limit", none, none, none, none, []⟩

def overrideA : ArgumentAnnotationBlock :=
  ⟨some 1, some "max results", some "maxResults", some "use first", [3]⟩

def overrideB : ArgumentAnnotationBlock := ⟨none, none, some "other", none, []⟩

theorem claim_C7_witness :
    (2 ≤ ([ArgMeta.overrideBlock overrideA, .otherMeta 0,
        .overrideBlock overrideB].filter isOverrideBlock).length)
    ∧ mkStrawberryArgument plainArgState
        [.overrideBlock overrideA, .otherMeta 0, .overrideBlock overrideB]
        = .error (.multipleStrawberryArguments "limit")
    ∧ ([ArgMeta.otherMeta 0, .overrideBlock overrideA].filter isOverrideBlock
        = [.overrideBlock overrideA])
    ∧ mkStrawberryArgument plainArgState [.otherMeta 0, .overrideBlock overrideA]
        = .ok ⟨"limit", some "maxResults", some 1, some "max results",
            some "use first", [3]⟩ := by
  refine ⟨by decide, ?_, by decide, ?_⟩
  · exact (claim_C7 plainArgState
      [.overrideBlock overrideA, .otherMeta 0, .overrideBlock overrideB]).1
      (by decide)
  · exact (claim_C7 plainArgState [.otherMeta 0, .overrideBlock overrideA]).2
      overrideA (by decide)

/-!
Part 6 embeds resolver attachment (`StrawberryField.__call__`,
`strawberry/field.py`): the union/interface argument-shape validation
that is skipped for textual forward references.
-/

/-- A resolver argument's raw annotation object
(`argument.type_annotation.annotation`): either a forward-reference
string — together with the type the string would later resolve to — or
a direct type expression. -/
inductive AnnotExpr where
  | strRef (s : String) (target : PyType)
  | direct (t : PyType)
  deriving Repr

def isStrRef : AnnotExpr → Bool
  | .strRef _ _ => true
  | _ => false

/-- `argument.type`: the resolved annotation (for a string, the
resolution of its target). -/
def argResolvedType : AnnotExpr → PyType
  | .strRef _ target => resolve target
  | .direct t => resolve t

structure ResolverArg where
  pythonName : String
  expr : AnnotExpr
  deriving Repr

inductive AttachErr where
  | invalidFieldArgument (resolverName : String) (argumentName : String) (kind : String)
  deriving Repr, DecidableEq

/-- The per-argument validation in `StrawberryField.__call__`: a string
annotation hits `continue` before `argument.type` is ever computed;
otherwise a resolved `StrawberryUnion` raises
`InvalidFieldArgument(..., "Union")` and a type carrying an interface
`_type_definition` raises `InvalidFieldArgument(..., "Interface")`. -/
def checkResolverArgument (resolverName : String) (arg : ResolverArg) :
    Except AttachErr Unit :=
  match arg.expr with
  | .strRef _ _ => .ok ()
  | .direct t =>
    match resolve t with
    | .strawberryUnion _ =>
      .error (.invalidFieldArgument resolverName arg.pythonName "Union")
    | .objectClass _ _ isInterface =>
      if isInterface then
        .error (.invalidFieldArgument resolverName arg.pythonName "Interface")
      else .ok ()
    | _ => .ok ()

/-- The `for argument in resolver.arguments` loop of
`StrawberryField.__call__`. -/
def validateResolverArguments (resolverName : String) :
    List ResolverArg → Except AttachErr Unit
  | [] => .ok ()
  | a :: rest =>
    match checkResolverArgument resolverName a with
    | .error e => .error e
    | .ok _ => validateResolverArguments resolverName rest

/-- `StrawberryField.__call__`: validate the resolver's arguments, then
bind the resolver to the field. -/
def strawberryFieldCall (f : FieldModel) (resolverName : String)
    (resolverIsAsync : Bool) (args : List ResolverArg) :
    Except AttachErr FieldModel :=
  match validateResolverArguments resolverName args with
  | .error e => .error e
  | .ok _ => .ok { f with baseResolver := some ⟨resolverIsAsync⟩ }

/-- C10: the union/interface argument validation of
`StrawberryField.__call__` skips every argument whose annotation is a
textual forward reference: validation behaves exactly as if those
arguments were absent, a string-annotated argument never contributes an
error no matter what its string later resolves to, and attaching a
resolver all of whose arguments are string-annotated always succeeds. -/
theorem claim_C10 (resolverName : String) :
    (∀ (args : List ResolverArg),
      validateResolverArguments resolverName args
        = validateResolverArguments resolverName
            (args.filter (fun a => !isStrRef a.expr)))
    ∧ (∀ (pythonName s : String) (target : PyType) (rest : List ResolverArg),
        validateResolverArguments resolverName (⟨pythonName, .strRef s target⟩ :: rest)
          = validateResolverArguments resolverName rest)
    ∧ (∀ (f : FieldModel) (ria : Bool) (args : List ResolverArg),
        (∀ a ∈ args, isStrRef a.expr = true) →
        strawberryFieldCall f resolverName ria args
          = .ok { f with baseResolver := some ⟨ria⟩ }) := by
  have hfilter : ∀ (args : List ResolverArg),
      validateResolverArguments resolverName args
        = validateResolverArguments resolverName
            (args.filter (fun a => !isStrRef a.expr)) := by
    intro args
    induction args with
    | nil => rfl
    | cons a rest ih =>
      cases ha : a.expr with
      | strRef s target =>
        have hneg : ¬ ((fun a => !isStrRef a.expr) a = true) := by
          simp [ha, isStrRef]
        have hchk : checkResolverArgument resolverName a = .ok () := by
          rw [checkResolverArgument, ha]
        rw [List.filter_cons, if_neg hneg, validateResolverArguments, hchk]
        exact ih
      | direct t =>
        have hpos : (fun a => !isStrRef a.expr) a = true := by
          simp [ha, isStrRef]
        rw [List.filter_cons, if_pos hpos, validateResolverArguments,
          validateResolverArguments]
        cases checkResolverArgument resolverName a with
        | error e => rfl
        | ok u => exact ih
  refine ⟨hfilter, ?_, ?_⟩
  · intro pythonName s target rest
    rw [validateResolverArguments,
      show checkResolverArgument resolverName ⟨pythonName, .strRef s target⟩
        = .ok () from rfl]
  · intro f ria args hall
    rw [strawberryFieldCall]
    have hempty : args.filter (fun a => !isStrRef a.expr) = [] := by
      rw [List.filter_eq_nil_iff]
      intro a ha
      simp [hall a ha]
    rw [hfilter args, hempty]
    rfl

/-- The forward-referenced target used by the C10 witness: a string
annotation whose eventual resolution is a genuine `StrawberryUnion`. -/
def lazyUnionArg : ResolverArg :=
  ⟨"shape", .strRef "ShapeUnion" (.union [.raw "Circle", .raw "Square"])⟩

theorem claim_C10_witness :
    (∀ a ∈ [lazyUnionArg], isStrRef a.expr = true)
    ∧ argResolvedType lazyUnionArg.expr
        = .strawberryUnion [.raw "Circle", .raw "Square"]
    ∧ strawberryFieldCall basicField "shapes_resolver" false [lazyUnionArg]
        = .ok { basicField with baseResolver := some ⟨false⟩ } := by
  refine ⟨by decide, ?_, ?_⟩
  · show resolve (.union [.raw "Circle", .raw "Square"]) = _
    exact resolve_union_plain (by rfl)
  · exact (claim_C10 "shapes_resolver").2.2 basicField false [lazyUnionArg] (by decide)

end StrawberrySpec
